import Mathlib

/-!
Shallow embedding of the face-store engine of `image_store.py` (class
`ImageStore`), together with the persistence layer it uses, and proofs of the
testable properties stated in the repository's specification.

Modelling conventions:
* encoding vectors are lists of rationals (the source stores numpy float
  vectors; the claims are about exact value preservation and order of real
  distances, so exact arithmetic is the faithful idealisation);
* Python dicts are insertion-ordered association lists; `d[k] = v` replaces
  the value in place when the key is present and appends otherwise;
* the pickle snapshot file is a record with the two optional keys
  `encodings` / `metadata` that `load_store` reads with `.get(key, [])`;
* a possible failure of `pickle.dump` inside `save_store` is modelled by an
  explicit `saveOk` argument; exceptions are modelled with `Except`;
* object identity of the metadata dicts (needed to talk about in-place
  mutation and shallow copies) is modelled separately by a heap of dicts
  addressed by naturals (`Heap`), with the store holding addresses.
-/

namespace FaceStore

/-- Values stored in a metadata dict: caller-supplied strings and the integer
`user_id` written by `add_image`. -/
inductive Val where
  | str (s : String)
  | int (n : Int)
deriving DecidableEq, Repr

/-- A Python dict with string keys: an insertion-ordered association list. -/
abbrev Dict := List (String × Val)

/-- Python `d.get(k)` (also `d.get(k)` returning `None` when absent):
the value at the first entry whose key is `k`. -/
def dget {β : Type} (d : List (String × β)) (k : String) : Option β :=
  (d.find? (fun p => p.1 == k)).map Prod.snd

/-- Python `d[k] = v`: replace the value in place when the key is present
(keeping its position), append the pair otherwise. -/
def dset {β : Type} (d : List (String × β)) (k : String) (v : β) : List (String × β) :=
  if d.any (fun p => p.1 == k) then
    d.map (fun p => if p.1 == k then (k, v) else p)
  else d ++ [(k, v)]

/-- A single face encoding vector (`numpy.ndarray` of floats in the source). -/
abbrev Encoding := List ℚ

/-- Values of the dict returned by `identify_face`: the copied metadata values
plus the two float fields `confidence` and `distance` (lines 176-178). -/
inductive RVal where
  | ofVal (v : Val)
  | real (x : ℝ)

/-- The dict type returned by `identify_face`. -/
abbrev RDict := List (String × RVal)

/-- Python `d.copy()` of a metadata dict, viewed at the result type of
`identify_face`: same keys, same values, same order. -/
def toRDict (d : Dict) : RDict := d.map (fun p => (p.1, RVal.ofVal p.2))

/-- The in-memory state of `ImageStore`: the two parallel lists
`self.face_encodings` and `self.metadata` (lines 27-28). -/
structure ImageStore where
  face_encodings : List Encoding
  metadata : List Dict
deriving DecidableEq, Repr

/-- The pickle snapshot written by `save_store`: a dict with keys
`encodings` and `metadata`; both optional because `load_store` reads them
with `data.get(key, [])` (lines 37-38). -/
structure StoreFile where
  encodings : Option (List Encoding)
  metadata : Option (List Dict)
deriving DecidableEq, Repr

/-- `save_store` (lines 47-59): the snapshot that a successful
`pickle.dump` writes — both keys present, taken from the current lists. -/
def save_store (st : ImageStore) : StoreFile :=
  { encodings := some st.face_encodings, metadata := some st.metadata }

/-- `load_store` (lines 31-45), successful-read path: populate the two lists
from the file with `data.get('encodings', [])` / `data.get('metadata', [])`. -/
def load_store (f : StoreFile) : ImageStore :=
  { face_encodings := f.encodings.getD [], metadata := f.metadata.getD [] }

/-- A Python exception escaping the persistence layer. -/
inductive PyErr where
  | ioError
deriving DecidableEq, Repr

/-- Outcome of `save_store` (lines 47-59): on a write failure the function
logs and re-raises (`raise`, line 59), so the caller sees the exception;
`saveOk` says whether the underlying `pickle.dump` succeeded. -/
def save_result (st : ImageStore) (saveOk : Bool) : Except PyErr StoreFile :=
  if saveOk then Except.ok (save_store st) else Except.error PyErr.ioError

instance {ε α : Type} [DecidableEq ε] [DecidableEq α] : DecidableEq (Except ε α) := fun x y =>
  match x, y with
  | Except.ok a, Except.ok b =>
      if h : a = b then Decidable.isTrue (congrArg Except.ok h)
      else Decidable.isFalse (fun he => h (Except.ok.inj he))
  | Except.error a, Except.error b =>
      if h : a = b then Decidable.isTrue (congrArg Except.error h)
      else Decidable.isFalse (fun he => h (Except.error.inj he))
  | Except.ok _, Except.error _ => Decidable.isFalse (fun he => Except.noConfusion he)
  | Except.error _, Except.ok _ => Decidable.isFalse (fun he => Except.noConfusion he)

/-- Result of `add_image`: the in-memory store afterwards, what the call
returns to its caller (a `Bool`, or an uncaught exception), and the snapshot
written to disk, if any. -/
structure AddResult where
  store : ImageStore
  ret : Except PyErr Bool
  written : Option StoreFile
deriving DecidableEq, Repr

/-- `add_image` (lines 61-117) from the point where the Encoder has produced
`encOut` (the source's `face_encodings` local, line 86). Zero vectors: return
`False`, nothing changed (lines 88-90). Otherwise only the first vector is
used (line 96); `metadata` defaults to `{}` when `None` (lines 99-100); a
non-`None` `user_id` is written into that same dict (lines 102-103); the
record is appended to both lists (lines 106-107) and `save_store` runs. The
surrounding `try/except` (lines 75, 115-117) turns any exception — including
a re-raised save failure — into an ordinary `return False`. -/
def add_image (st : ImageStore) (encOut : List Encoding) (user_id : Option Int)
    (md : Option Dict) (saveOk : Bool) : AddResult :=
  if encOut.length = 0 then ⟨st, Except.ok false, none⟩
  else
    let face_encoding := encOut.headD []
    let m0 := md.getD []
    let m := match user_id with
      | some uid => dset m0 "user_id" (Val.int uid)
      | none => m0
    let st' : ImageStore := ⟨st.face_encodings ++ [face_encoding], st.metadata ++ [m]⟩
    match save_result st' saveOk with
    | Except.ok f => ⟨st', Except.ok true, some f⟩
    | Except.error _ => ⟨st', Except.ok false, none⟩

/-- `get_all_metadata` (lines 189-191): `self.metadata.copy()` — the sequence
of stored metadata dicts, in insertion order, no encodings. -/
def get_all_metadata (st : ImageStore) : List Dict := st.metadata

/-- `clear_store` (lines 220-225): reset both lists and persist. -/
def clear_store (_st : ImageStore) : ImageStore × StoreFile :=
  (⟨[], []⟩, save_store ⟨[], []⟩)

/-- The test `meta.get('user_id') == user_id` of line 205. -/
def matchesUid (m : Dict) (uid : Int) : Bool :=
  decide (dget m "user_id" = some (Val.int uid))

/-- The loop of lines 203-206: the ascending list of indices `i` with
`q (l[i])` (the source's `indices_to_delete`, built by `enumerate`). -/
def matchIdxs {α : Type} (q : α → Bool) : List α → List ℕ
  | [] => []
  | a :: t => (if q a then [0] else []) ++ (matchIdxs q t).map (· + 1)

/-- The loop of lines 212-214: `del lst[i]` for each `i` in the given order
(the source sorts the indices in reverse, i.e. descending). -/
def eraseDesc {α : Type} : List α → List ℕ → List α
  | l, [] => l
  | l, i :: rest => eraseDesc (l.eraseIdx i) rest

/-- Result of `delete_by_user_id`: the store afterwards, the returned `Bool`,
and the snapshot written, if any. -/
structure DeleteResult where
  store : ImageStore
  removed : Bool
  written : Option StoreFile
deriving DecidableEq, Repr

/-- `delete_by_user_id` (lines 193-218): collect the indices whose metadata
`user_id` equals the argument; if none, return `False` without touching
anything; otherwise delete those indices, in descending order, from both
lists, persist, and return `True`. -/
def delete_by_user_id (st : ImageStore) (uid : Int) : DeleteResult :=
  let idxs := matchIdxs (fun m => matchesUid m uid) st.metadata
  if idxs.isEmpty then ⟨st, false, none⟩
  else
    let st' : ImageStore :=
      ⟨eraseDesc st.face_encodings idxs.reverse, eraseDesc st.metadata idxs.reverse⟩
    ⟨st', true, some (save_store st')⟩

/-- A heap of metadata dicts addressed by naturals, for the aliasing-sensitive
parts of the source: Python dicts are mutable objects passed by reference. -/
abbrev Heap := List Dict

/-- Reference-level model of the metadata handling of `add_image`
(lines 98-107): `mdRef` is the address of the caller-supplied dict (`none`
models the Python default `metadata=None`, which allocates a fresh `{}`);
`metadata['user_id'] = user_id` (line 103) is an in-place update of the dict
at that address; line 107 appends that same address to `self.metadata`.
Returns the heap afterwards and the store's list of dict addresses. -/
def addImageMetaRefs (heap : Heap) (refs : List ℕ) (user_id : Option Int)
    (mdRef : Option ℕ) : Heap × List ℕ :=
  let alloc : Heap × ℕ := match mdRef with
    | none => (heap ++ [[]], heap.length)
    | some a => (heap, a)
  let heap1 := alloc.1
  let a := alloc.2
  let heap2 := match user_id with
    | some uid => heap1.set a (dset (heap1.getD a []) "user_id" (Val.int uid))
    | none => heap1
  (heap2, refs ++ [a])

/-- Reference-level model of `get_all_metadata` (line 191):
`self.metadata.copy()` is a new list object containing the same dict
references — a shallow copy. -/
def getAllMetadataRefs (refs : List ℕ) : List ℕ := refs

/-- Squared Euclidean distance of two vectors, componentwise over their zip. -/
def sqDist (a b : Encoding) : ℚ :=
  ((a.zip b).map (fun p => (p.1 - p.2) ^ 2)).sum

/-- `face_recognition.face_distance` for one stored encoding `e` against the
query `q`: the Euclidean norm of the difference (line 167). -/
noncomputable def faceDistance (e q : Encoding) : ℝ :=
  Real.sqrt ((sqDist e q : ℚ) : ℝ)

/-- `np.argmin`'s scan state: `bi`/`bv` are the index and value of the current
best; replacement happens only on a strictly smaller value, so the first
occurrence of the minimum wins. -/
def argminAux {α : Type} [LinearOrder α] : List α → ℕ → ℕ → α → ℕ
  | [], _, bi, _ => bi
  | x :: xs, i, bi, bv =>
      if x < bv then argminAux xs (i + 1) i x else argminAux xs (i + 1) bi bv

/-- `np.argmin` (line 174): the index of the first occurrence of the minimum
of the list (0 on the empty list, never reached by the source). -/
def argminIdx {α : Type} [LinearOrder α] : List α → ℕ
  | [] => 0
  | x :: xs => argminAux xs 1 0 x

/-- The list `face_distances` of line 167: distance of every stored encoding
to the query, in store order. -/
noncomputable def identDists (st : ImageStore) (q : Encoding) : List ℝ :=
  st.face_encodings.map (fun e => faceDistance e q)

/-- Lines 176-178: copy the matched record's metadata and write the two
derived fields into the copy, `confidence` first, then `distance`. -/
noncomputable def augmentMeta (m : Dict) (dv : ℝ) : RDict :=
  dset (dset (toRDict m) "confidence" (RVal.real (1 - dv))) "distance" (RVal.real dv)

/-- `identify_face` (lines 119-187) from the point where the Encoder has
produced `encOut`. Zero query vectors: no-match (lines 145-147); only the
first vector is used (line 152); empty store: no-match (lines 155-157).
Otherwise `compare_faces` flags every stored record within tolerance
(`mtchs`, lines 160-164), `face_distance` computes all distances (line 167),
and the two-step acceptance of lines 173-183 runs: if some flag is set, take
the arg-min of the distances, and accept iff its flag is set. -/
noncomputable def identifyFace (st : ImageStore) (encOut : List Encoding)
    (tol : ℝ) : Option RDict :=
  if encOut.length = 0 then none
  else
    let unknown := encOut.headD []
    if st.face_encodings.length = 0 then none
    else
      let mtchs := st.face_encodings.map (fun e => decide (faceDistance e unknown ≤ tol))
      let dists := identDists st unknown
      if true ∈ mtchs then
        let best := argminIdx dists
        if mtchs.getD best false then
          some (augmentMeta (st.metadata.getD best []) (dists.getD best 0))
        else none
      else none

/-- Modelled from the spec (§4.1, `identify`): the one-step rule. Compute all
distances, select the record with the globally minimum distance breaking ties
by lowest insertion index, and accept it iff its distance is ≤ tolerance;
no-match on an empty query or an empty store. -/
noncomputable def identifyFaceSpec (st : ImageStore) (encOut : List Encoding)
    (tol : ℝ) : Option RDict :=
  if encOut.length = 0 then none
  else
    let unknown := encOut.headD []
    if st.face_encodings.length = 0 then none
    else
      let dists := identDists st unknown
      let best := argminIdx dists
      if dists.getD best 0 ≤ tol then
        some (augmentMeta (st.metadata.getD best []) (dists.getD best 0))
      else none

/-- A one-record store used to instantiate the conditional theorems. -/
def sampleStore : ImageStore := ⟨[[1, 2]], [[("user_id", Val.int 1)]]⟩

/-! ### Dict lemmas -/

lemma find?_map_set {β : Type} (k : String) (v : β) (d : List (String × β)) :
    (d.map (fun p => if p.1 == k then (k, v) else p)).find? (fun p => p.1 == k)
      = if d.any (fun p => p.1 == k) then some (k, v) else none := by
  induction d with
  | nil => simp
  | cons p t ih =>
    rw [List.map_cons, List.any_cons]
    by_cases hp : (p.1 == k) = true
    · rw [if_pos hp]
      simp [List.find?_cons, hp]
    · have hp' : (p.1 == k) = false := by
        rwa [Bool.not_eq_true] at hp
      rw [if_neg hp]
      simp only [List.find?_cons, hp', Bool.false_or, ih]

lemma find?_map_set_other {β : Type} (k k' : String) (hkk : k' ≠ k) (v : β)
    (d : List (String × β)) :
    (d.map (fun p => if p.1 == k then (k, v) else p)).find? (fun p => p.1 == k')
      = d.find? (fun p => p.1 == k') := by
  have hkne : ((k : String) == k') = false := by
    simp only [beq_eq_false_iff_ne, ne_eq]
    exact fun he => hkk he.symm
  induction d with
  | nil => simp
  | cons p t ih =>
    rw [List.map_cons]
    by_cases hp : (p.1 == k) = true
    · have hpk' : ((p.1 : String) == k') = false := by
        have hpk : p.1 = k := by simpa [beq_iff_eq] using hp
        rw [hpk]; exact hkne
      rw [if_pos hp, List.find?_cons, List.find?_cons]
      simpa [hkne, hpk', -List.find?_map] using ih
    · rw [if_neg hp]
      by_cases hq : (p.1 == k') = true
      · rw [List.find?_cons, List.find?_cons]
        simp [hq]
      · have hq' : (p.1 == k') = false := by rwa [Bool.not_eq_true] at hq
        rw [List.find?_cons, List.find?_cons]
        simpa [hq', -List.find?_map] using ih

lemma dget_dset_self {β : Type} (d : List (String × β)) (k : String) (v : β) :
    dget (dset d k v) k = some v := by
  unfold dget dset
  by_cases h : d.any (fun p => p.1 == k)
  · rw [if_pos h, find?_map_set, if_pos h]; rfl
  · rw [if_neg h, List.find?_append]
    have hnone : d.find? (fun p => p.1 == k) = none := by
      rw [List.find?_eq_none]
      intro x hx hpx
      exact h (List.any_eq_true.mpr ⟨x, hx, hpx⟩)
    rw [hnone]
    simp

lemma dget_dset_other {β : Type} (d : List (String × β)) (k k' : String) (v : β)
    (hkk : k' ≠ k) :
    dget (dset d k v) k' = dget d k' := by
  have hkne : ((k : String) == k') = false := by
    simp only [beq_eq_false_iff_ne, ne_eq]
    exact fun he => hkk he.symm
  unfold dget dset
  by_cases h : d.any (fun p => p.1 == k)
  · rw [if_pos h, find?_map_set_other k k' hkk]
  · rw [if_neg h, List.find?_append]
    have hlast : (([(k, v)] : List (String × β)).find? (fun p => p.1 == k')) = none := by
      rw [List.find?_cons_of_neg _ (by simp [hkne]), List.find?_nil]
    rw [hlast, Option.or_none]

lemma dget_toRDict (d : Dict) (k : String) :
    dget (toRDict d) k = (dget d k).map RVal.ofVal := by
  unfold dget toRDict
  induction d with
  | nil => simp
  | cons p t ih =>
    rw [List.map_cons]
    by_cases hp : (p.1 == k) = true
    · simp [List.find?_cons, hp]
    · have hp' : (p.1 == k) = false := by rwa [Bool.not_eq_true] at hp
      simp [List.find?_cons, hp', ih, -List.find?_map]

/-! ### argmin lemmas -/

/-- Full characterisation of `argminAux` over a valuation `v` of positions:
the result is `bi` or a position of `xs`; its value is at most the incoming
best `bv`; it is a minimum of `xs`; it is strictly smaller than the value of
every earlier candidate position; and it can keep the value `bv` only by
being `bi` itself. -/
lemma argminAux_spec {α : Type} [LinearOrder α] (dflt : α) :
    ∀ (xs : List α) (i bi : ℕ) (bv : α) (v : ℕ → α),
      bi < i → v bi = bv → (∀ k, k < xs.length → v (i + k) = xs.getD k dflt) →
      (argminAux xs i bi bv = bi ∨
         ∃ k, k < xs.length ∧ argminAux xs i bi bv = i + k) ∧
      v (argminAux xs i bi bv) ≤ bv ∧
      (∀ k, k < xs.length → v (argminAux xs i bi bv) ≤ xs.getD k dflt) ∧
      (∀ j, (j = bi ∨ ∃ k, k < xs.length ∧ j = i + k) →
         j < argminAux xs i bi bv → v (argminAux xs i bi bv) < v j) ∧
      (argminAux xs i bi bv ≠ bi → v (argminAux xs i bi bv) < bv) := by
  intro xs
  induction xs with
  | nil =>
    intro i bi bv v _ hvbi _
    have hred : argminAux ([] : List α) i bi bv = bi := rfl
    rw [hred]
    refine ⟨Or.inl rfl, hvbi.le, ?_, ?_, ?_⟩
    · intro k hk; exact absurd hk (Nat.not_lt_zero k)
    · intro j hj hlt
      rcases hj with rfl | ⟨k, hk, _⟩
      · exact absurd hlt (lt_irrefl _)
      · exact absurd hk (Nat.not_lt_zero k)
    · intro hne; exact absurd rfl hne
  | cons x xs ih =>
    intro i bi bv v hbi hvbi hoff
    have hvi : v i = x := by
      have h0 := hoff 0 (Nat.succ_pos _)
      simpa using h0
    have hshift : ∀ k, k < xs.length → v ((i + 1) + k) = xs.getD k dflt := by
      intro k hk
      have h1 := hoff (k + 1) (by simpa using Nat.succ_lt_succ hk)
      have h2 : i + (k + 1) = (i + 1) + k := by omega
      rw [h2] at h1
      simpa using h1
    by_cases hx : x < bv
    · have hrec := ih (i + 1) i x v (Nat.lt_succ_self i) hvi hshift
      obtain ⟨hpos, hle, hmin, hfirst, hstrict⟩ := hrec
      have hred : argminAux (x :: xs) i bi bv = argminAux xs (i + 1) i x := by
        simp only [argminAux, if_pos hx]
      rw [hred]
      refine ⟨?_, ?_, ?_, ?_, ?_⟩
      · rcases hpos with h | ⟨k, hk, h⟩
        · exact Or.inr ⟨0, Nat.succ_pos _, by omega⟩
        · exact Or.inr ⟨k + 1, by simpa using Nat.succ_lt_succ hk, by omega⟩
      · exact hle.trans hx.le
      · intro k hk
        cases k with
        | zero => simpa using hle
        | succ k' =>
          have hk' : k' < xs.length := by simpa using Nat.lt_of_succ_lt_succ hk
          simpa using hmin k' hk'
      · intro j hj hjr
        rcases hj with rfl | ⟨k, hk, rfl⟩
        · calc v (argminAux xs (i + 1) i x) ≤ x := hle
            _ < bv := hx
            _ = v j := hvbi.symm
        · cases k with
          | zero =>
            have hji : i + 0 = i := by omega
            rw [hji] at hjr ⊢
            exact hfirst i (Or.inl rfl) hjr
          | succ k' =>
            have hk' : k' < xs.length := by simpa using Nat.lt_of_succ_lt_succ hk
            have hj' : i + (k' + 1) = (i + 1) + k' := by omega
            rw [hj'] at hjr ⊢
            exact hfirst _ (Or.inr ⟨k', hk', rfl⟩) hjr
      · intro _
        exact lt_of_le_of_lt hle hx
    · have hrec := ih (i + 1) bi bv v (Nat.lt_succ_of_lt hbi) hvbi hshift
      obtain ⟨hpos, hle, hmin, hfirst, hstrict⟩ := hrec
      have hbvx : bv ≤ x := le_of_not_lt hx
      have hred : argminAux (x :: xs) i bi bv = argminAux xs (i + 1) bi bv := by
        simp only [argminAux, if_neg hx]
      rw [hred]
      refine ⟨?_, ?_, ?_, ?_, ?_⟩
      · rcases hpos with h | ⟨k, hk, h⟩
        · exact Or.inl h
        · exact Or.inr ⟨k + 1, by simpa using Nat.succ_lt_succ hk, by omega⟩
      · exact hle
      · intro k hk
        cases k with
        | zero => simpa using hle.trans hbvx
        | succ k' =>
          have hk' : k' < xs.length := by simpa using Nat.lt_of_succ_lt_succ hk
          simpa using hmin k' hk'
      · intro j hj hjr
        rcases hj with rfl | ⟨k, hk, rfl⟩
        · exact hfirst _ (Or.inl rfl) hjr
        · cases k with
          | zero =>
            have hji : i + 0 = i := by omega
            rw [hji] at hjr ⊢
            have hne : argminAux xs (i + 1) bi bv ≠ bi := by omega
            calc v (argminAux xs (i + 1) bi bv) < bv := hstrict hne
              _ ≤ x := hbvx
              _ = v i := hvi.symm
          | succ k' =>
            have hk' : k' < xs.length := by simpa using Nat.lt_of_succ_lt_succ hk
            have hj' : i + (k' + 1) = (i + 1) + k' := by omega
            rw [hj'] at hjr ⊢
            exact hfirst _ (Or.inr ⟨k', hk', rfl⟩) hjr
      · exact hstrict

/-- The three facts about `np.argmin` used by `identify_face` on a non-empty
list: the index is in range, its value is a minimum, and every strictly
earlier index has a strictly larger value (first occurrence wins). -/
lemma argminIdx_spec {α : Type} [LinearOrder α] (dflt : α) (x : α) (xs : List α) :
    argminIdx (x :: xs) < (x :: xs).length ∧
    (∀ j, j < (x :: xs).length →
      (x :: xs).getD (argminIdx (x :: xs)) dflt ≤ (x :: xs).getD j dflt) ∧
    (∀ j, j < argminIdx (x :: xs) →
      (x :: xs).getD (argminIdx (x :: xs)) dflt < (x :: xs).getD j dflt) := by
  have hspec := argminAux_spec dflt xs 1 0 x (fun j => (x :: xs).getD j dflt)
    Nat.one_pos (by simp) ?hoff
  case hoff =>
    intro k hk
    have h1 : 1 + k = k + 1 := by omega
    simp only [h1, List.getD_cons_succ]
  obtain ⟨hpos, hle, hmin, hfirst, _⟩ := hspec
  simp only [argminIdx]
  refine ⟨?_, ?_, ?_⟩
  · rcases hpos with h | ⟨k, hk, h⟩
    · rw [h]; simp
    · rw [h]; simp only [List.length_cons]; omega
  · intro j hj
    cases j with
    | zero => simpa using hle
    | succ j' =>
      have hj' : j' < xs.length := by simpa using Nat.lt_of_succ_lt_succ hj
      simpa using hmin j' hj'
  · intro j hj
    have hbound : argminAux xs 1 0 x ≤ xs.length := by
      rcases hpos with h | ⟨k, hk, h⟩
      · omega
      · omega
    cases j with
    | zero => exact hfirst 0 (Or.inl rfl) hj
    | succ j' =>
      have hj' : j' < xs.length := by omega
      have h1 : j' + 1 = 1 + j' := by omega
      rw [h1] at hj ⊢
      exact hfirst _ (Or.inr ⟨j', hj', rfl⟩) hj

/-- `argminIdx_spec` for any non-empty list. -/
lemma argminIdx_spec' {α : Type} [LinearOrder α] (dflt : α) (l : List α) (h : l ≠ []) :
    argminIdx l < l.length ∧
    (∀ j, j < l.length → l.getD (argminIdx l) dflt ≤ l.getD j dflt) ∧
    (∀ j, j < argminIdx l → l.getD (argminIdx l) dflt < l.getD j dflt) := by
  cases l with
  | nil => exact absurd rfl h
  | cons x xs => exact argminIdx_spec dflt x xs

lemma getD_map {α β : Type} (f : α → β) (l : List α) (i : ℕ) (hi : i < l.length)
    (d : α) (d' : β) : (l.map f).getD i d' = f (l.getD i d) := by
  rw [List.getD_eq_getElem _ _ (by simpa using hi), List.getD_eq_getElem _ _ hi,
    List.getElem_map]

lemma getD_mem {α : Type} (l : List α) (i : ℕ) (hi : i < l.length) (d : α) :
    l.getD i d ∈ l := by
  rw [List.getD_eq_getElem _ _ hi]
  exact List.getElem_mem hi

/-- The source's two-step acceptance (flag everything within tolerance, take
the global arg-min, check its flag) computes exactly the spec's one-step
rule. -/
theorem identifyFace_eq_spec (st : ImageStore) (encOut : List Encoding) (tol : ℝ) :
    identifyFace st encOut tol = identifyFaceSpec st encOut tol := by
  by_cases h0 : encOut.length = 0
  · simp only [identifyFace, identifyFaceSpec, if_pos h0]
  by_cases h1 : st.face_encodings.length = 0
  · simp only [identifyFace, identifyFaceSpec, if_neg h0, if_pos h1]
  simp only [identifyFace, identifyFaceSpec, if_neg h0, if_neg h1]
  set unknown := encOut.headD [] with hu
  set dists := identDists st unknown with hd
  set best := argminIdx dists with hb
  have hmm : st.face_encodings.map (fun e => decide (faceDistance e unknown ≤ tol))
      = dists.map (fun dv => decide (dv ≤ tol)) := by
    rw [hd]
    unfold identDists
    rw [List.map_map]
    rfl
  have hlen : dists.length = st.face_encodings.length := by
    rw [hd]; unfold identDists; exact List.length_map _ _
  have hdne : dists ≠ [] := by
    intro hnil
    exact h1 (by rw [← hlen, hnil]; rfl)
  obtain ⟨hblt, hbmin, _⟩ := argminIdx_spec' (0 : ℝ) dists hdne
  rw [← hb] at hblt hbmin
  have hgetflag : (dists.map (fun dv => decide (dv ≤ tol))).getD best false
      = decide (dists.getD best 0 ≤ tol) := getD_map _ _ _ hblt _ _
  rw [hmm]
  by_cases hle : dists.getD best 0 ≤ tol
  · have hmem : true ∈ dists.map (fun dv => decide (dv ≤ tol)) := by
      rw [List.mem_map]
      exact ⟨dists.getD best 0, getD_mem _ _ hblt _, by simpa using hle⟩
    rw [if_pos hmem, if_pos hle, hgetflag, if_pos (by simpa using hle)]
  · have hnomem : true ∉ dists.map (fun dv => decide (dv ≤ tol)) := by
      intro hmem
      rw [List.mem_map] at hmem
      obtain ⟨dv, hdv, hdec⟩ := hmem
      have hdvle : dv ≤ tol := by simpa using hdec
      obtain ⟨i, hi, hival⟩ := List.mem_iff_getElem.mp hdv
      have : dists.getD best 0 ≤ dv := by
        rw [← hival, ← List.getD_eq_getElem dists 0 hi]
        exact hbmin i hi
      exact hle (this.trans hdvle)
    rw [if_neg hnomem, if_neg hle]

lemma identifyFaceSpec_form (st : ImageStore) (q : Encoding) (rest : List Encoding)
    (tol : ℝ) (hne : st.face_encodings ≠ []) :
    identifyFaceSpec st (q :: rest) tol
      = if (identDists st q).getD (argminIdx (identDists st q)) 0 ≤ tol then
          some (augmentMeta (st.metadata.getD (argminIdx (identDists st q)) [])
            ((identDists st q).getD (argminIdx (identDists st q)) 0))
        else none := by
  have hlen0 : ¬ ((q :: rest).length = 0) := by simp
  have hlen1 : ¬ (st.face_encodings.length = 0) := by
    simpa [List.length_eq_zero] using hne
  simp only [identifyFaceSpec, if_neg hlen0, if_neg hlen1, List.headD_cons]

/-- Claim C1: the two-step acceptance of `identify_face` (flag all records within
tolerance, take the global arg-min of the distances, verify its flag) is the
one-step rule of the spec: on a non-empty store the selected index is in
range, attains the globally minimum Euclidean distance, every strictly
earlier index has a strictly larger distance (lowest-index tie-break), the
call returns the augmented arg-min record iff the minimum distance is ≤
tolerance and no-match iff it is not, and on an empty store it always
returns no-match. -/
theorem identify_face_selection (st : ImageStore) (q : Encoding)
    (rest : List Encoding) (tol : ℝ) (hne : st.face_encodings ≠ []) :
    identifyFace st (q :: rest) tol = identifyFaceSpec st (q :: rest) tol ∧
    argminIdx (identDists st q) < (identDists st q).length ∧
    (∀ j, j < (identDists st q).length →
      (identDists st q).getD (argminIdx (identDists st q)) 0
        ≤ (identDists st q).getD j 0) ∧
    (∀ j, j < argminIdx (identDists st q) →
      (identDists st q).getD (argminIdx (identDists st q)) 0
        < (identDists st q).getD j 0) ∧
    (identifyFace st (q :: rest) tol
        = some (augmentMeta (st.metadata.getD (argminIdx (identDists st q)) [])
            ((identDists st q).getD (argminIdx (identDists st q)) 0))
      ↔ (identDists st q).getD (argminIdx (identDists st q)) 0 ≤ tol) ∧
    (identifyFace st (q :: rest) tol = none
      ↔ tol < (identDists st q).getD (argminIdx (identDists st q)) 0) ∧
    (∀ st' : ImageStore, st'.face_encodings = [] →
      identifyFace st' (q :: rest) tol = none) := by
  have heq := identifyFace_eq_spec st (q :: rest) tol
  have hform := identifyFaceSpec_form st q rest tol hne
  have hdne : identDists st q ≠ [] := by
    unfold identDists
    simpa [List.map_eq_nil_iff] using hne
  obtain ⟨hblt, hbmin, hbfirst⟩ := argminIdx_spec' (0 : ℝ) (identDists st q) hdne
  refine ⟨heq, hblt, hbmin, hbfirst, ?_, ?_, ?_⟩
  · rw [heq, hform]
    by_cases hle : (identDists st q).getD (argminIdx (identDists st q)) 0 ≤ tol
    · simp [if_pos hle, hle]
    · simp [if_neg hle, hle]
  · rw [heq, hform]
    by_cases hle : (identDists st q).getD (argminIdx (identDists st q)) 0 ≤ tol
    · simp only [if_pos hle]
      constructor
      · intro hcontra; exact absurd hcontra (Option.some_ne_none _)
      · intro hlt; exact absurd hle (not_le.mpr hlt)
    · simp only [if_neg hle]
      constructor
      · intro _
        exact not_le.mp hle
      · intro _
        trivial
  · intro st' h'
    have hlen1 : st'.face_encodings.length = 0 := by rw [h']; rfl
    simp only [identifyFace, if_pos hlen1]
    simp

/-- Claim C7: an accepted match of `identify_face` is the copy of the arg-min
record's metadata with exactly the two derived fields written into it:
`distance`, the raw Euclidean distance between the query and the matched
encoding, and `confidence`, exactly `1 - distance` (unclamped); every other
key holds the copied stored value, and the stored metadata itself is
untouched (the result is built from `metadata.copy()`). -/
theorem identify_face_augment (st : ImageStore) (encOut : List Encoding)
    (tol : ℝ) (r : RDict) (h : identifyFace st encOut tol = some r) :
    ∃ best dv,
      best = argminIdx (identDists st (encOut.headD [])) ∧
      best < st.face_encodings.length ∧
      dv = faceDistance (st.face_encodings.getD best []) (encOut.headD []) ∧
      r = augmentMeta (st.metadata.getD best []) dv ∧
      dget r "distance" = some (RVal.real dv) ∧
      dget r "confidence" = some (RVal.real (1 - dv)) ∧
      (∀ k, k ≠ "distance" → k ≠ "confidence" →
        dget r k = (dget (st.metadata.getD best []) k).map RVal.ofVal) := by
  rw [identifyFace_eq_spec] at h
  by_cases h0 : encOut.length = 0
  · rw [identifyFaceSpec, if_pos h0] at h
    exact absurd h (Option.noConfusion)
  by_cases h1 : st.face_encodings.length = 0
  · rw [identifyFaceSpec, if_neg h0] at h
    simp only [if_pos h1] at h
    exact absurd h (Option.noConfusion)
  · simp only [identifyFaceSpec, if_neg h0, if_neg h1] at h
    set unknown := encOut.headD [] with hu
    set best := argminIdx (identDists st unknown) with hb
    by_cases hle : (identDists st unknown).getD best 0 ≤ tol
    · rw [if_pos hle] at h
      have hr := (Option.some.inj h).symm
      have hdne : identDists st unknown ≠ [] := by
        unfold identDists
        simpa [List.map_eq_nil_iff, List.length_eq_zero] using h1
      obtain ⟨hblt, _, _⟩ := argminIdx_spec' (0 : ℝ) (identDists st unknown) hdne
      rw [← hb] at hblt
      have hbltE : best < st.face_encodings.length := by
        have : (identDists st unknown).length = st.face_encodings.length := by
          unfold identDists; exact List.length_map _ _
        omega
      have hdv : (identDists st unknown).getD best 0
          = faceDistance (st.face_encodings.getD best []) unknown := by
        unfold identDists
        exact getD_map _ _ _ (by simpa [identDists] using hblt) _ _
      refine ⟨best, (identDists st unknown).getD best 0, rfl, hbltE, hdv, hr, ?_, ?_, ?_⟩
      · rw [hr]
        unfold augmentMeta
        exact dget_dset_self _ _ _
      · rw [hr]
        unfold augmentMeta
        rw [dget_dset_other _ _ _ _ (by decide), dget_dset_self]
      · intro k hk1 hk2
        rw [hr]
        unfold augmentMeta
        rw [dget_dset_other _ _ _ _ hk1, dget_dset_other _ _ _ _ hk2, dget_toRDict]
    · rw [if_neg hle] at h
      exact absurd h (Option.noConfusion)

theorem identify_face_selection_witness :
    identifyFace sampleStore ([1, 2] :: []) (3 / 5)
        = identifyFaceSpec sampleStore ([1, 2] :: []) (3 / 5) ∧
    argminIdx (identDists sampleStore [1, 2]) < (identDists sampleStore [1, 2]).length ∧
    (∀ j, j < (identDists sampleStore [1, 2]).length →
      (identDists sampleStore [1, 2]).getD (argminIdx (identDists sampleStore [1, 2])) 0
        ≤ (identDists sampleStore [1, 2]).getD j 0) ∧
    (∀ j, j < argminIdx (identDists sampleStore [1, 2]) →
      (identDists sampleStore [1, 2]).getD (argminIdx (identDists sampleStore [1, 2])) 0
        < (identDists sampleStore [1, 2]).getD j 0) ∧
    (identifyFace sampleStore ([1, 2] :: []) (3 / 5)
        = some (augmentMeta
            (sampleStore.metadata.getD (argminIdx (identDists sampleStore [1, 2])) [])
            ((identDists sampleStore [1, 2]).getD (argminIdx (identDists sampleStore [1, 2])) 0))
      ↔ (identDists sampleStore [1, 2]).getD (argminIdx (identDists sampleStore [1, 2])) 0
          ≤ 3 / 5) ∧
    (identifyFace sampleStore ([1, 2] :: []) (3 / 5) = none
      ↔ 3 / 5
          < (identDists sampleStore [1, 2]).getD (argminIdx (identDists sampleStore [1, 2])) 0) ∧
    (∀ st' : ImageStore, st'.face_encodings = [] →
      identifyFace st' ([1, 2] :: []) (3 / 5) = none) :=
  identify_face_selection sampleStore [1, 2] [] (3 / 5) (by simp [sampleStore])

theorem identify_face_augment_witness :
    ∃ best dv,
      best = argminIdx (identDists sampleStore (([[1, 2]] : List Encoding).headD [])) ∧
      best < sampleStore.face_encodings.length ∧
      dv = faceDistance (sampleStore.face_encodings.getD best [])
             (([[1, 2]] : List Encoding).headD []) ∧
      augmentMeta [("user_id", Val.int 1)] 0
        = augmentMeta (sampleStore.metadata.getD best []) dv ∧
      dget (augmentMeta [("user_id", Val.int 1)] 0) "distance" = some (RVal.real dv) ∧
      dget (augmentMeta [("user_id", Val.int 1)] 0) "confidence"
        = some (RVal.real (1 - dv)) ∧
      (∀ k, k ≠ "distance" → k ≠ "confidence" →
        dget (augmentMeta [("user_id", Val.int 1)] 0) k
          = (dget (sampleStore.metadata.getD best []) k).map RVal.ofVal) :=
  identify_face_augment sampleStore [[1, 2]] (3 / 5) (augmentMeta [("user_id", Val.int 1)] 0)
    (by
      have hfd0 : faceDistance [1, 2] [1, 2] = 0 := by
        unfold faceDistance
        have hq : sqDist [1, 2] [1, 2] = 0 := by norm_num [sqDist]
        rw [hq]
        simp
      have hdists : identDists sampleStore [1, 2] = [faceDistance [1, 2] [1, 2]] := by
        simp [identDists, sampleStore]
      rw [identifyFace_eq_spec,
        identifyFaceSpec_form sampleStore [1, 2] [] (3 / 5) (by simp [sampleStore])]
      rw [hdists, hfd0]
      have hai : argminIdx ([0] : List ℝ) = 0 := rfl
      have hgd : ([0] : List ℝ).getD 0 0 = 0 := rfl
      rw [hai, hgd, if_pos (by norm_num)]
      have hmd : sampleStore.metadata.getD 0 [] = [("user_id", Val.int 1)] := rfl
      rw [hmd])

/-- Claim C3: persisting a store and reloading it into a fresh store yields the
identical ordered sequence of (encoding, metadata) pairs; vector values and
insertion order are preserved exactly. -/
theorem save_load_roundtrip (st : ImageStore) :
    load_store (save_store st) = st ∧
    (load_store (save_store st)).face_encodings = st.face_encodings ∧
    (load_store (save_store st)).metadata = st.metadata ∧
    (load_store (save_store st)).face_encodings.zip (load_store (save_store st)).metadata
      = st.face_encodings.zip st.metadata :=
  ⟨rfl, rfl, rfl, rfl⟩

/-- Claim C5: `add_image` with an encoder output of zero vectors returns the
ordinary boolean failure, raises nothing, writes nothing, and leaves the
store (length and contents) unchanged. -/
theorem add_empty_encoder (st : ImageStore) (uid : Option Int) (md : Option Dict)
    (ok : Bool) :
    add_image st [] uid md ok = ⟨st, Except.ok false, none⟩ ∧
    (add_image st [] uid md ok).store = st ∧
    (add_image st [] uid md ok).ret = Except.ok false ∧
    (add_image st [] uid md ok).written = none :=
  ⟨rfl, rfl, rfl, rfl⟩

theorem add_save_failure_counterexample :
    (add_image ⟨[], []⟩ [[0]] (some 1) none false).ret = Except.ok false ∧
    (add_image ⟨[], []⟩ [[0]] (some 1) none false).store
      = ⟨[[0]], [[("user_id", Val.int 1)]]⟩ ∧
    (∀ e : PyErr, (add_image ⟨[], []⟩ [[0]] (some 1) none false).ret ≠ Except.error e) := by
  refine ⟨rfl, rfl, ?_⟩
  intro e h
  exact Except.noConfusion h

/-- Claim C2, amended: `save_store` itself re-raises a persistence write failure,
but `add_image`'s catch-all `except` absorbs it: after the record has been
appended, a failing save makes `add_image` return the ordinary boolean
`False` (no exception reaches the caller), with the record still appended in
memory and no snapshot written. -/
theorem add_save_failure_behaviour (st : ImageStore) (encOut : List Encoding)
    (uid : Option Int) (md : Option Dict) (henc : encOut ≠ []) :
    (∀ st2 : ImageStore, save_result st2 false = Except.error PyErr.ioError) ∧
    (add_image st encOut uid md false).ret = Except.ok false ∧
    (add_image st encOut uid md false).written = none ∧
    (add_image st encOut uid md false).store.metadata.length
      = st.metadata.length + 1 ∧
    (add_image st encOut uid md false).store.face_encodings.length
      = st.face_encodings.length + 1 := by
  refine ⟨fun _ => rfl, ?_, ?_, ?_, ?_⟩ <;>
    simp [add_image, save_result, henc]

theorem add_save_failure_behaviour_witness :
    (∀ st2 : ImageStore, save_result st2 false = Except.error PyErr.ioError) ∧
    (add_image ⟨[], []⟩ [[0]] (some 1) none false).ret = Except.ok false ∧
    (add_image ⟨[], []⟩ [[0]] (some 1) none false).written = none ∧
    (add_image ⟨[], []⟩ [[0]] (some 1) none false).store.metadata.length
      = (ImageStore.mk [] []).metadata.length + 1 ∧
    (add_image ⟨[], []⟩ [[0]] (some 1) none false).store.face_encodings.length
      = (ImageStore.mk [] []).face_encodings.length + 1 :=
  add_save_failure_behaviour ⟨[], []⟩ [[0]] (some 1) none (by simp)

theorem add_none_user_id_counterexample :
    (add_image ⟨[], []⟩ [[0]] none none true).ret = Except.ok true ∧
    (add_image ⟨[], []⟩ [[0]] none none true).store.metadata = [[]] ∧
    dget ((add_image ⟨[], []⟩ [[0]] none none true).store.metadata.getD 0 [])
      "user_id" = none :=
  ⟨rfl, rfl, rfl⟩

/-- Claim C8, amended: for every `add_image` call that supplies a (non-None)
`user_id` — as every caller in the repository does — the key-presence
invariant holds: if every stored record's metadata has a `user_id` key
before the call, then every record after the call (including the newly
appended one) has it too. A call with `user_id=None`, which the code's
default permits, stores a record without the key. -/
theorem add_user_id_invariant (st : ImageStore) (encOut : List Encoding) (uid : Int)
    (md : Option Dict) (ok : Bool)
    (hprev : ∀ m ∈ st.metadata, (dget m "user_id").isSome = true) :
    ∀ m ∈ (add_image st encOut (some uid) md ok).store.metadata,
      (dget m "user_id").isSome = true := by
  intro m hm
  unfold add_image at hm
  by_cases h0 : encOut.length = 0
  · rw [if_pos h0] at hm
    exact hprev m hm
  · rw [if_neg h0] at hm
    have hm2 : m ∈ st.metadata ∨ m = dset ((md.getD []) : Dict) "user_id" (Val.int uid) := by
      cases ok <;> simpa [save_result] using hm
    rcases hm2 with hm2 | hm2
    · exact hprev m hm2
    · rw [hm2, dget_dset_self]
      rfl

theorem add_user_id_invariant_witness :
    (dget ([("user_id", Val.int 5)] : Dict) "user_id").isSome = true :=
  add_user_id_invariant ⟨[], []⟩ [[0]] 5 none true (by simp)
    [("user_id", Val.int 5)]
    (by
      have hmd : (add_image ⟨[], []⟩ [[0]] (some 5) none true).store.metadata
          = [[("user_id", Val.int 5)]] := rfl
      rw [hmd]
      exact List.mem_singleton.mpr rfl)

theorem add_mutates_caller_dict_counterexample :
    (addImageMetaRefs [[("user_id", Val.str "caller")]] [] (some 7) (some 0)).1.getD 0 []
        ≠ ([[("user_id", Val.str "caller")]] : Heap).getD 0 [] ∧
    (addImageMetaRefs [[("user_id", Val.str "caller")]] [] (some 7) (some 0)).2 = [0] := by
  refine ⟨?_, rfl⟩
  intro h
  have : (Val.int 7) = (Val.str "caller") := by
    have h0 : (addImageMetaRefs [[("user_id", Val.str "caller")]] [] (some 7)
        (some 0)).1.getD 0 [] = [("user_id", Val.int 7)] := rfl
    have h1 : ([[("user_id", Val.str "caller")]] : Heap).getD 0 []
        = [("user_id", Val.str "caller")] := rfl
    rw [h0, h1] at h
    exact (Prod.mk.inj (List.cons.inj h).1).2
  exact Val.noConfusion this

/-- Claim C6, amended: `user_id` is merged into the caller-supplied metadata
mapping itself, in place, under the key `user_id`, overwriting any
caller-supplied value of that key, and the stored record holds (aliases)
that same mapping; the caller's dict IS therefore mutated (no copy is
taken). Functionally the appended record's metadata is the merged dict. -/
theorem add_merges_user_id (st : ImageStore) (encOut : List Encoding) (uid : Int)
    (md : Dict) (ok : Bool) (heap : Heap) (refs : List ℕ) (a : ℕ)
    (henc : encOut ≠ []) :
    (add_image st encOut (some uid) (some md) ok).store.metadata
        = st.metadata ++ [dset md "user_id" (Val.int uid)] ∧
    dget (dset md "user_id" (Val.int uid)) "user_id" = some (Val.int uid) ∧
    (addImageMetaRefs heap refs (some uid) (some a)).1
        = heap.set a (dset (heap.getD a []) "user_id" (Val.int uid)) ∧
    (addImageMetaRefs heap refs (some uid) (some a)).2 = refs ++ [a] := by
  refine ⟨?_, dget_dset_self _ _ _, rfl, rfl⟩
  cases ok <;> simp [add_image, save_result, henc]

theorem add_merges_user_id_witness :
    (add_image ⟨[], []⟩ [[0]] (some 7) (some [("user_id", Val.str "caller")]) true).store.metadata
        = ([] : List Dict) ++ [dset [("user_id", Val.str "caller")] "user_id" (Val.int 7)] ∧
    dget (dset [("user_id", Val.str "caller")] "user_id" (Val.int 7)) "user_id"
      = some (Val.int 7) ∧
    (addImageMetaRefs [[("user_id", Val.str "caller")]] [] (some 7) (some 0)).1
        = ([[("user_id", Val.str "caller")]] : Heap).set 0
            (dset (([[("user_id", Val.str "caller")]] : Heap).getD 0 []) "user_id" (Val.int 7)) ∧
    (addImageMetaRefs [[("user_id", Val.str "caller")]] [] (some 7) (some 0)).2
      = ([] : List ℕ) ++ [0] :=
  add_merges_user_id ⟨[], []⟩ [[0]] 7 [("user_id", Val.str "caller")] true
    [[("user_id", Val.str "caller")]] [] 0 (by simp)

theorem list_shallow_copy_counterexample :
    getAllMetadataRefs [0] = [0] ∧
    ([0].map (fun a =>
        (([[("user_id", Val.int 1)]] : Heap).set ((getAllMetadataRefs [0]).getD 0 0)
          (dset (([[("user_id", Val.int 1)]] : Heap).getD
            ((getAllMetadataRefs [0]).getD 0 0) []) "x" (Val.str "y"))).getD a [])
      ≠ [0].map (fun a => ([[("user_id", Val.int 1)]] : Heap).getD a [])) := by
  refine ⟨rfl, ?_⟩
  intro h
  have h0 : ([0].map (fun a =>
      (([[("user_id", Val.int 1)]] : Heap).set ((getAllMetadataRefs [0]).getD 0 0)
        (dset (([[("user_id", Val.int 1)]] : Heap).getD
          ((getAllMetadataRefs [0]).getD 0 0) []) "x" (Val.str "y"))).getD a []))
      = [[("user_id", Val.int 1), ("x", Val.str "y")]] := rfl
  have h1 : ([0].map (fun a => ([[("user_id", Val.int 1)]] : Heap).getD a []))
      = [[("user_id", Val.int 1)]] := rfl
  rw [h0, h1] at h
  have h2 := (List.cons.inj h).1
  have h3 := (List.cons.inj h2).2
  exact List.noConfusion h3

/-- Claim C9, amended: `get_all_metadata` returns the stored metadata sequence in
insertion order with no encodings, and `.copy()` is a new list object so
changing the returned list itself cannot affect the store; but the copy is
shallow — the returned list holds references to the very dicts the store
holds, so mutating a mapping reached through it mutates the store. -/
theorem get_all_metadata_spec (st : ImageStore) (refs : List ℕ) :
    get_all_metadata st = st.metadata ∧
    getAllMetadataRefs refs = refs ∧
    (∀ i, i < refs.length → (getAllMetadataRefs refs).getD i 0 = refs.getD i 0) :=
  ⟨rfl, rfl, fun _ _ => rfl⟩

theorem get_all_metadata_spec_witness :
    get_all_metadata sampleStore = sampleStore.metadata ∧
    getAllMetadataRefs [0] = [0] ∧
    (∀ i, i < ([0] : List ℕ).length → (getAllMetadataRefs [0]).getD i 0 = ([0] : List ℕ).getD i 0) :=
  get_all_metadata_spec sampleStore [0]

/-! ### eraseDesc and matchIdxs lemmas -/

lemma eraseDesc_append {α : Type} (xs ys : List ℕ) :
    ∀ l : List α, eraseDesc l (xs ++ ys) = eraseDesc (eraseDesc l xs) ys := by
  induction xs with
  | nil => intro l; rfl
  | cons i t ih =>
    intro l
    simp only [List.cons_append, eraseDesc]
    exact ih _

lemma eraseDesc_map_succ {α : Type} (D : List ℕ) :
    ∀ (a : α) (t : List α), eraseDesc (a :: t) (D.map (· + 1)) = a :: eraseDesc t D := by
  induction D with
  | nil => intro a t; rfl
  | cons i Dt ih =>
    intro a t
    simp only [List.map_cons, eraseDesc, List.eraseIdx_cons_succ]
    exact ih a _

/-- Deleting, in descending order, exactly the indices whose element matches
`q` (as collected by the loop of lines 203-206) filters the matching
elements out of any parallel list of the same length, preserving the
relative order of the rest. -/
lemma eraseDesc_matchIdxs {α β : Type} (q : β → Bool) :
    ∀ (md : List β) (l : List α), l.length = md.length →
      eraseDesc l (matchIdxs q md).reverse
        = ((l.zip md).filter (fun x => ! q x.2)).map Prod.fst := by
  intro md
  induction md with
  | nil =>
    intro l hl
    have hnil : l = [] := List.length_eq_zero.mp (by simpa using hl)
    subst hnil
    rfl
  | cons b mt ih =>
    intro l hl
    cases l with
    | nil => simp at hl
    | cons a lt =>
      have hl2 : lt.length = mt.length := by simpa using hl
      have hrev : (matchIdxs q (b :: mt)).reverse
          = ((matchIdxs q mt).reverse.map (· + 1)) ++ (if q b then [0] else []) := by
        show ((if q b then [0] else []) ++ (matchIdxs q mt).map (· + 1)).reverse = _
        rw [List.reverse_append, ← List.map_reverse]
        by_cases hqb : q b
        · rw [if_pos hqb]
          rfl
        · rw [if_neg hqb]
          rfl
      rw [hrev, eraseDesc_append, eraseDesc_map_succ, ih lt hl2]
      by_cases hqb : q b
      · rw [if_pos hqb]
        simp [eraseDesc, hqb]
      · rw [if_neg hqb]
        simp [eraseDesc, hqb]

lemma isEmpty_map {α β : Type} (f : α → β) (l : List α) :
    (l.map f).isEmpty = l.isEmpty := by
  cases l <;> rfl

lemma matchIdxs_isEmpty {β : Type} (q : β → Bool) :
    ∀ md : List β, (matchIdxs q md).isEmpty = ! md.any q := by
  intro md
  induction md with
  | nil => rfl
  | cons b mt ih =>
    by_cases hqb : q b <;> simp [matchIdxs, hqb, isEmpty_map, ih]

lemma filter_zip_self {β : Type} (p : β → Bool) :
    ∀ l : List β, ((l.zip l).filter (fun x => p x.2)).map Prod.fst = l.filter p := by
  intro l
  induction l with
  | nil => rfl
  | cons b t ih => by_cases hpb : p b <;> simp [hpb, ih]

lemma filter_zip_length {α β : Type} (q : β → Bool) :
    ∀ (l : List α) (md : List β), l.length = md.length →
      (((l.zip md).filter (fun x => ! q x.2)).map Prod.fst).length
        = (md.filter (fun m => ! q m)).length := by
  intro l
  induction l with
  | nil =>
    intro md h
    have hnil : md = [] := List.length_eq_zero.mp (by simpa using h.symm)
    subst hnil
    rfl
  | cons a lt ih =>
    intro md h
    cases md with
    | nil => simp at h
    | cons b mt =>
      have h2 : lt.length = mt.length := by simpa using h
      by_cases hqb : q b <;> simp [hqb, ih mt h2]

/-- Full characterisation of `delete_by_user_id` on a store satisfying the
parallel-length invariant. -/
lemma delete_char (st : ImageStore) (uid : Int)
    (h : st.face_encodings.length = st.metadata.length) :
    (delete_by_user_id st uid).store.metadata
        = st.metadata.filter (fun m => ! matchesUid m uid) ∧
    (delete_by_user_id st uid).store.face_encodings
        = ((st.face_encodings.zip st.metadata).filter
            (fun x => ! matchesUid x.2 uid)).map Prod.fst ∧
    (delete_by_user_id st uid).removed = st.metadata.any (fun m => matchesUid m uid) ∧
    ((delete_by_user_id st uid).removed = false →
        (delete_by_user_id st uid).store = st ∧
        (delete_by_user_id st uid).written = none) ∧
    ((delete_by_user_id st uid).removed = true →
        (delete_by_user_id st uid).written
          = some (save_store (delete_by_user_id st uid).store)) := by
  simp only [delete_by_user_id]
  by_cases hemp : (matchIdxs (fun m => matchesUid m uid) st.metadata).isEmpty
  · rw [if_pos hemp]
    have hany : st.metadata.any (fun m => matchesUid m uid) = false := by
      have h2 := matchIdxs_isEmpty (fun m => matchesUid m uid) st.metadata
      rw [hemp] at h2
      simpa using h2.symm
    have hkeep : ∀ m ∈ st.metadata, (! matchesUid m uid) = true := by
      intro m hm
      have h3 := (List.any_eq_false.mp hany) m hm
      simpa using h3
    refine ⟨?_, ?_, ?_, fun _ => ⟨rfl, rfl⟩, ?_⟩
    · exact (List.filter_eq_self.mpr hkeep).symm
    · have hallz : ∀ x ∈ st.face_encodings.zip st.metadata,
          (! matchesUid x.2 uid) = true := by
        intro x hx
        exact hkeep x.2 (List.of_mem_zip hx).2
      rw [List.filter_eq_self.mpr hallz, List.map_fst_zip _ _ (le_of_eq h)]
    · exact hany.symm
    · intro hcontra
      exact Bool.noConfusion hcontra
  · rw [if_neg hemp]
    have hany : st.metadata.any (fun m => matchesUid m uid) = true := by
      have h2 := matchIdxs_isEmpty (fun m => matchesUid m uid) st.metadata
      have h3 : (matchIdxs (fun m => matchesUid m uid) st.metadata).isEmpty = false := by
        simpa using hemp
      rw [h3] at h2
      simpa using h2.symm
    refine ⟨?_, ?_, hany.symm, ?_, fun _ => rfl⟩
    · have h4 := eraseDesc_matchIdxs (fun m => matchesUid m uid) st.metadata st.metadata rfl
      have h5 := filter_zip_self (fun m => ! matchesUid m uid) st.metadata
      rw [h4]
      simpa using h5
    · exact eraseDesc_matchIdxs (fun m => matchesUid m uid) st.metadata st.face_encodings h
    · intro hcontra
      exact Bool.noConfusion hcontra

/-- Claim C4: `delete_by_user_id` removes exactly the records whose metadata
`user_id` equals the argument (all duplicates included), preserves the
relative order of the remaining records, returns true iff at least one
record was removed and then persists the new store; when no record matches
it returns false and both the in-memory store and the disk are untouched. -/
theorem delete_by_user_id_spec (st : ImageStore) (uid : Int)
    (h : st.face_encodings.length = st.metadata.length) :
    (delete_by_user_id st uid).store.metadata
        = st.metadata.filter (fun m => ! matchesUid m uid) ∧
    (delete_by_user_id st uid).store.face_encodings
        = ((st.face_encodings.zip st.metadata).filter
            (fun x => ! matchesUid x.2 uid)).map Prod.fst ∧
    (delete_by_user_id st uid).removed = st.metadata.any (fun m => matchesUid m uid) ∧
    ((delete_by_user_id st uid).removed = false →
        (delete_by_user_id st uid).store = st ∧
        (delete_by_user_id st uid).written = none) ∧
    ((delete_by_user_id st uid).removed = true →
        (delete_by_user_id st uid).written
          = some (save_store (delete_by_user_id st uid).store)) :=
  delete_char st uid h

theorem delete_by_user_id_spec_witness :
    (delete_by_user_id sampleStore 1).store.metadata
        = sampleStore.metadata.filter (fun m => ! matchesUid m 1) ∧
    (delete_by_user_id sampleStore 1).store.face_encodings
        = ((sampleStore.face_encodings.zip sampleStore.metadata).filter
            (fun x => ! matchesUid x.2 1)).map Prod.fst ∧
    (delete_by_user_id sampleStore 1).removed
        = sampleStore.metadata.any (fun m => matchesUid m 1) ∧
    ((delete_by_user_id sampleStore 1).removed = false →
        (delete_by_user_id sampleStore 1).store = sampleStore ∧
        (delete_by_user_id sampleStore 1).written = none) ∧
    ((delete_by_user_id sampleStore 1).removed = true →
        (delete_by_user_id sampleStore 1).written
          = some (save_store (delete_by_user_id sampleStore 1).store)) :=
  delete_by_user_id_spec sampleStore 1 rfl

/-- Claim C10: the parallel-array invariant `length face_encodings = length
metadata` holds for the empty store and is preserved by every mutating
operation: loading a saved snapshot, `add_image` in all its outcomes,
`delete_by_user_id`, and `clear_store`; `identify_face` and
`get_all_metadata` never write the store (in the model they do not produce a
store at all). -/
theorem parallel_lengths (st : ImageStore)
    (h : st.face_encodings.length = st.metadata.length) :
    ((⟨[], []⟩ : ImageStore).face_encodings.length
        = (⟨[], []⟩ : ImageStore).metadata.length) ∧
    ((load_store (save_store st)).face_encodings.length
        = (load_store (save_store st)).metadata.length) ∧
    (∀ encOut uid md ok,
      (add_image st encOut uid md ok).store.face_encodings.length
        = (add_image st encOut uid md ok).store.metadata.length) ∧
    (∀ uid, (delete_by_user_id st uid).store.face_encodings.length
        = (delete_by_user_id st uid).store.metadata.length) ∧
    ((clear_store st).1.face_encodings.length = (clear_store st).1.metadata.length) := by
  refine ⟨rfl, h, ?_, ?_, rfl⟩
  · intro encOut uid md ok
    cases encOut with
    | nil => simpa [add_image] using h
    | cons e rest => cases ok <;> simp [add_image, save_result, h]
  · intro uid
    obtain ⟨hmdeq, henceq, _, _, _⟩ := delete_char st uid h
    rw [henceq, hmdeq,
      filter_zip_length (fun m => matchesUid m uid) st.face_encodings st.metadata h]

theorem parallel_lengths_witness :
    ((⟨[], []⟩ : ImageStore).face_encodings.length
        = (⟨[], []⟩ : ImageStore).metadata.length) ∧
    ((load_store (save_store sampleStore)).face_encodings.length
        = (load_store (save_store sampleStore)).metadata.length) ∧
    (∀ encOut uid md ok,
      (add_image sampleStore encOut uid md ok).store.face_encodings.length
        = (add_image sampleStore encOut uid md ok).store.metadata.length) ∧
    (∀ uid, (delete_by_user_id sampleStore uid).store.face_encodings.length
        = (delete_by_user_id sampleStore uid).store.metadata.length) ∧
    ((clear_store sampleStore).1.face_encodings.length
        = (clear_store sampleStore).1.metadata.length) :=
  parallel_lengths sampleStore rfl

end FaceStore
